import Mathlib

/-!
Shallow embedding of the WinoFPGA CFU gateware (Amaranth HDL, single clock
domain) and proofs about it.

Conventions used throughout:
* An n-bit signed signal holds an integer in [-2^(n-1), 2^(n-1)); a value
  assigned to it is wrapped with `sw n` (a twos-complement wrap, `Int.bmod`).
* An n-bit unsigned signal holds a natural below 2^n; assignments wrap `% 2^n`.
* Synchronous (`m.d.sync`) logic becomes an explicit step function on a state
  record; combinational (`m.d.comb`) outputs become plain functions of the
  state and the inputs of the cycle.  When several `m.d.sync` assignments target the
  same signal in one cycle, the one elaborated last wins (Amaranth semantics);
  the step functions reproduce that priority order.
-/

namespace WinoFPGA

/-- Twos-complement wrap of an integer to a `w`-bit signed signal. -/
def sw (w : Nat) (x : Int) : Int := Int.bmod x (2 ^ w)

/-! ### Delayer (`gateware/delay.py`)

`Delayer.elab`: a 6-bit shift register; `output` taps bit `cycles - 1` for
`cycles ∈ {2,3,4,5}` and bit 0 otherwise. -/

/-- One clock tick of the `Delayer` shift register:
`shift_register[1:].eq(shift_register)`, `shift_register[0].eq(input)`. -/
def delayShift (sr : Fin 6 → Bool) (inp : Bool) : Fin 6 → Bool :=
  fun k => if h : k.val = 0 then inp else sr ⟨k.val - 1, by omega⟩

/-- The `Delayer` combinational output mux on `cycles` (a 4-bit signal). -/
def delayOutput (sr : Fin 6 → Bool) (cycles : Nat) : Bool :=
  if cycles = 5 then sr 4
  else if cycles = 4 then sr 3
  else if cycles = 3 then sr 2
  else if cycles = 2 then sr 1
  else sr 0

/-- Run the `Delayer` for `n` ticks on the input stream `f`, from the reset
state (all shift-register bits zero). -/
def delayRun (f : Nat → Bool) : Nat → (Fin 6 → Bool)
  | 0 => fun _ => false
  | n + 1 => delayShift (delayRun f n) (f n)

/-! ### AccOrTrans, pointwise branch (`gateware for sim/mul.py`, lines 106-123)

State: the `add_sum` register (signed 28) and the `accumulator` register
(signed 32).  `in_values` are the 16 signed-24 product signals. -/

structure PwAccState where
  addSum : Int
  accumulator : Int

/-- Embedding of `tree_sum(self.in_values[n] for n in range(8))` — the combinational
reduction feeding the `add_sum` register (only the first 8 of the 16
products). -/
def pwAddSumComb (iv : Fin 16 → Int) : Int :=
  iv 0 + iv 1 + iv 2 + iv 3 + iv 4 + iv 5 + iv 6 + iv 7

/-- One clock tick of the pointwise accumulator.  `clear` is checked after the
`add_en` branch, so its assignment to `accumulator` wins. -/
def pwStep (s : PwAccState) (iv : Fin 16 → Int) (addEn clear : Bool) :
    PwAccState where
  addSum := sw 28 (pwAddSumComb iv)
  accumulator :=
    if clear then 0
    else if addEn then sw 32 (s.accumulator + s.addSum)
    else s.accumulator

/-- The combinational `result[0]` output of the pointwise branch. -/
def pwResult (s : PwAccState) (addEn : Bool) : Int :=
  if addEn then sw 32 (s.accumulator + s.addSum) else s.accumulator

/-- The partial sum registered into `add_sum` from a vector of products, as the
words of the spec describe it over "all 16 products": used to state claim C1
verbatim for comparison with the `pwAddSumComb` taken from the code. -/
def sumAll16 (iv : Fin 16 → Int) : Int :=
  iv 0 + iv 1 + iv 2 + iv 3 + iv 4 + iv 5 + iv 6 + iv 7 +
  iv 8 + iv 9 + iv 10 + iv 11 + iv 12 + iv 13 + iv 14 + iv 15

/-! ### AccOrTrans, depthwise branch (`gateware for sim/mul.py`, lines 125-180)

State registers: `late_in_values[0..3]` (signed 24), `Y_tmp[0..3]` (signed 32)
and `Y[0..3]` (signed 32).  `result[n]` is combinational `Y[n] >> 2`
(arithmetic shift). -/

structure DwState where
  late : Fin 4 → Int
  ytmp : Fin 4 → Int
  y : Fin 4 → Int

/-- The four fixed linear combinations fed into the `Y_tmp` registers
(`mul.py` lines 150-162), in the term order of the source. -/
def ytmpComb (iv : Fin 16 → Int) : Fin 4 → Int
  | 0 => iv 0 + iv 2 + iv 8 + iv 1 + iv 3 + iv 9 + iv 4 + iv 6
  | 1 => iv 1 + iv 3 + iv 9 - iv 4 - iv 6 - iv 12 - iv 5 - iv 7
  | 2 => iv 2 - iv 8 - iv 10 + iv 3 - iv 9 - iv 11 + iv 6 - iv 12
  | 3 => iv 3 - iv 9 - iv 11 - iv 6 + iv 12 + iv 14 - iv 7 + iv 13

/-- One clock tick of the depthwise branch: `late_in_values[i]` registers
`in_values[12+i]`; `Y_tmp[i]` registers the fixed combination; `Y[i]` registers
`Y_tmp[i] ± late_in_values[i]` with sign pattern `+,-,-,+`. -/
def dwStep (s : DwState) (iv : Fin 16 → Int) : DwState where
  late := fun i => sw 24 (iv ⟨12 + i.val, by omega⟩)
  ytmp := fun i => sw 32 (ytmpComb iv i)
  y := fun i =>
    sw 32 (match i with
      | 0 => s.ytmp 0 + s.late 0
      | 1 => s.ytmp 1 - s.late 1
      | 2 => s.ytmp 2 - s.late 2
      | 3 => s.ytmp 3 + s.late 3)

/-- Combinational `result[i].eq(Y[i] >> 2)` — arithmetic right shift by two of
a signed-32 register, i.e. floor division by 4. -/
def dwResult (s : DwState) (i : Fin 4) : Int := Int.fdiv (s.y i) 4

/-! ### UpCounter and GateCalculator (`gateware/sequencing.py`) -/

/-- Next count of `UpCounter`: `restart` is elaborated after `en`, so it wins. -/
def upCount (restart en : Bool) (mx c : Nat) : Nat :=
  if restart then 0 else if en then (if c = mx - 1 then 0 else c + 1) else c

/-- Done pulse `UpCounter.done`: high iff counting and at the last count. -/
def upDone (en : Bool) (mx c : Nat) : Bool := en && (c == mx - 1)

/-! ### Sequencer (`gateware/sequencing.py`, `Sequencer.elab`)

Static configuration (mode flag and counter maxima), the registered state
(`running` latch, the four counters, three delay-line shift registers), and the
per-cycle inputs. `PostProcessor.PIPELINE_CYCLES` comes from the external
post-processor, so it is kept as a configuration parameter `ppCycles`. -/

structure SeqConfig where
  switchPorD : Bool
  numTile : Nat
  filterValueWords : Nat
  inputDepthWords : Nat
  ppCycles : Nat

structure SeqState where
  running : Bool
  fnextCount : Nat
  fCount : Nat
  iCount : Nat
  fourCount : Nat
  mulSR : Fin 6 → Bool
  ppSR : Fin 6 → Bool
  d2SR : Fin 6 → Bool

structure SeqInput where
  startRun : Bool
  inStoreReady : Bool
  fifoHasSpace : Bool
  restart : Bool

/-- All-zero reset state of the sequencer. -/
def seqInit : SeqState :=
  ⟨false, 0, 0, 0, 0, fun _ => false, fun _ => false, fun _ => false⟩

/-- Combinational output of `GateCalculator`:
`gate = (running | start_run) & in_store_ready & fifo_has_space`. -/
def seqGate (s : SeqState) (i : SeqInput) : Bool :=
  (s.running || i.startRun) && i.inStoreReady && i.fifoHasSpace

/-- Maximum `f_count.max`: `filter_value_words[1:]` in pointwise mode, `num_tile` in
depthwise mode. -/
def seqFMax (cfg : SeqConfig) : Nat :=
  if cfg.switchPorD then cfg.numTile else cfg.filterValueWords / 2

/-- Maximum `i_count.max`: `input_depth_words[1:]` in pointwise mode, `num_tile` in
depthwise mode. -/
def seqIMax (cfg : SeqConfig) : Nat :=
  if cfg.switchPorD then cfg.numTile else cfg.inputDepthWords / 2

/-- Latency `mul_delay.cycles`: 3 in pointwise mode, 5 in depthwise mode. -/
def seqMulCycles (cfg : SeqConfig) : Nat := if cfg.switchPorD then 5 else 3

/-- Pulse `mul_done`: the gate delayed through `mul_delay`. -/
def seqMulOut (cfg : SeqConfig) (s : SeqState) : Bool :=
  delayOutput s.mulSR (seqMulCycles cfg)

/-- One clock tick of the registered sequencer state. -/
def seqStep (cfg : SeqConfig) (s : SeqState) (i : SeqInput) : SeqState :=
  let gate := seqGate s i
  let aof := upDone gate (seqFMax cfg) s.fCount
  let mulOut := seqMulOut cfg s
  let accDone := upDone mulOut (seqIMax cfg) s.iCount
  { running := if aof then false else if i.startRun then true else s.running
    fnextCount := upCount i.restart gate cfg.numTile s.fnextCount
    fCount := upCount i.restart gate (seqFMax cfg) s.fCount
    iCount := upCount i.restart mulOut (seqIMax cfg) s.iCount
    fourCount := upCount i.restart (delayOutput s.ppSR cfg.ppCycles) 4 s.fourCount
    mulSR := delayShift s.mulSR gate
    ppSR := delayShift s.ppSR accDone
    d2SR := delayShift s.d2SR mulOut }

/-- Sequencer configuration used for the concrete backpressure trace: pointwise
mode, 8 filter words, 8 input-depth words. -/
def c4cfg : SeqConfig := ⟨false, 10, 8, 8, 2⟩

/-- Concrete input trace: one gated cycle (run start with data and FIFO space),
then the FIFO reports no space. -/
def c4trace : List SeqInput :=
  [⟨true, true, true, false⟩, ⟨false, true, false, false⟩,
   ⟨false, true, false, false⟩]

/-- Sequencer state three cycles into the trace. -/
def c4s3 : SeqState := c4trace.foldl (seqStep c4cfg) seqInit

/-- Fourth-cycle input: input store ready, FIFO still without space. -/
def c4in3 : SeqInput := ⟨false, true, false, false⟩

/-! ### CircularIncrementer (`gateware for sim/store.py`, lines 128-141)

State: the `last_addr` register (width `w` = width of `range(depth)`).  The
emitted `r_addr` is combinational. -/

structure CircState where
  lastAddr : Nat

/-- The combinational `r_addr`: 0 on restart, else
`Mux(last_addr >= limit - 1, 0, last_addr + 1)` on next, else `last_addr`.
The `+ 1` wraps at the signal width `w`. -/
def circEmit (w limit : Nat) (s : CircState) (restart nxt : Bool) : Nat :=
  if restart then 0
  else if nxt then (if s.lastAddr ≥ limit - 1 then 0 else (s.lastAddr + 1) % 2 ^ w)
  else s.lastAddr

/-- One clock tick: `last_addr.eq(r_addr)`. -/
def circStep (w limit : Nat) (s : CircState) (restart nxt : Bool) : CircState :=
  ⟨circEmit w limit s restart nxt⟩

/-- Run the incrementer from reset over a list of `(restart, next)` inputs. -/
def circRun (w limit : Nat) (l : List (Bool × Bool)) : CircState :=
  l.foldl (fun s p => circStep w limit s p.1 p.2) ⟨0⟩

/-! ### StoreSetter (`gateware for sim/store.py`, lines 84-97)

`num_memories = 2^nmb` banks; `count` is a `cw`-bit register; `w_addr` is the
`aw`-bit slice `count[nmb:]`. -/

structure SSState where
  count : Nat

/-- The per-bank write enables: bank `count[:nmb]` is enabled on an accepted
write (`start` and not `restart`); no bank is enabled otherwise. -/
def ssWEn (nmb count : Nat) (start restart : Bool) : Nat → Bool :=
  fun j => if restart then false else if start then j == count % 2 ^ nmb else false

/-- Embedding of `w_addr.eq(count[num_memories_bits:])`. -/
def ssWAddr (nmb aw count : Nat) : Nat := (count / 2 ^ nmb) % 2 ^ aw

/-- Embedding of `updated.eq(Cat(w_en).any() | restart)`. -/
def ssUpdated (nmb count : Nat) (start restart : Bool) : Bool :=
  (List.range (2 ^ nmb)).any (ssWEn nmb count start restart) || restart

/-- One clock tick of `count`: zeroed on restart, else incremented (wrapping at
the register width) on an accepted write. -/
def ssStep (cw : Nat) (s : SSState) (start restart : Bool) : SSState :=
  ⟨if restart then 0 else if start then (s.count + 1) % 2 ^ cw else s.count⟩

/-! ### FilterValueFetcher read-pointer logic
(`gateware for sim/store.py`, lines 321-341) -/

/-- The `smr_nexts` pulses.  Pointwise (`switch = false`): indices
`r_addr[:2]` and `r_addr[:2] + 1` (the latter expression can denote the
out-of-range index 4, which enables no reader).  Depthwise: indices
`r_addr[:2]`, `(r_addr+1)[:2]`, `(r_addr+2)[:2]`. -/
def fvfSmrNexts (switch : Bool) (rAddr : Nat) (restart nxt : Bool) :
    Fin 4 → Bool :=
  fun i =>
    if restart then false
    else if nxt then
      if switch then
        (i.val == rAddr % 4) || (i.val == (rAddr + 1) % 4) ||
          (i.val == (rAddr + 2) % 4)
      else (i.val == rAddr % 4) || (i.val == rAddr % 4 + 1)
    else false

/-- The next `r_addr` register value (`w` = width of the `limit` signal):
pointwise wraps to 0 at `limit - 2` else advances by 2; depthwise wraps at
`limit - 3` else advances by 3. -/
def fvfNextRAddr (w : Nat) (switch : Bool) (limit rAddr : Nat)
    (restart nxt : Bool) : Nat :=
  if restart then 0
  else if nxt then
    if switch then (if rAddr = limit - 3 then 0 else (rAddr + 3) % 2 ^ w)
    else (if rAddr = limit - 2 then 0 else (rAddr + 2) % 2 ^ w)
  else rAddr

/-! ### InputStore depthwise read data path
(`gateware for sim/store.py`, lines 619-659)

`b : Fin 16 → Int` is the vector of signed byte values `cut(tmp, k, 8)`;
`r_data_tmp[i]` are signed-12 registers; lane `i` of `r_data` is a 12-bit
slice. -/

/-- The combinational sums feeding the `r_data_tmp` registers (lines 622-637),
term-for-term from the source. -/
def dwRDataTmpComb (b : Fin 16 → Int) : Fin 16 → Int
  | ⟨0, _⟩ => b 0 - b 8 - b 4 + b 12
  | ⟨1, _⟩ => b 1 - b 9 + b 4 - b 12
  | ⟨2, _⟩ => b 2 + b 8 - b 6 - b 12
  | ⟨3, _⟩ => b 3 + b 9 + b 6 + b 12
  | ⟨4, _⟩ => -b 1 + b 9 + b 4 - b 12
  | ⟨5, _⟩ => b 1 - b 9 - b 5 + b 13
  | ⟨6, _⟩ => -b 3 - b 9 + b 6 + b 12
  | ⟨7, _⟩ => b 3 + b 9 - b 7 - b 13
  | ⟨8, _⟩ => -b 2 + b 8 + b 6 - b 12
  | ⟨9, _⟩ => -b 3 + b 9 - b 6 + b 12
  | ⟨10, _⟩ => b 2 - b 10 - b 6 + b 14
  | ⟨11, _⟩ => b 3 - b 11 + b 6 - b 14
  | ⟨12, _⟩ => b 3 - b 9 - b 6 + b 12
  | ⟨13, _⟩ => -b 3 + b 9 + b 7 - b 13
  | ⟨14, _⟩ => -b 3 + b 11 + b 6 - b 14
  | ⟨15, _⟩ => b 3 - b 11 - b 7 + b 15
  | ⟨n + 16, h⟩ => by omega

/-- The signed-12 `r_data_tmp` register contents. -/
def dwRDataTmp (b : Fin 16 → Int) (i : Fin 16) : Int :=
  sw 12 (dwRDataTmpComb b i)

/-- The 16 lanes of `r_data` (lines 642-657): lane 3 additionally receives
`self.offset << 2`; every other lane is its `r_data_tmp` register. -/
def dwRData (b : Fin 16 → Int) (offset : Int) (i : Fin 16) : Int :=
  if i.val = 3 then sw 12 (dwRDataTmp b 3 + offset * 4)
  else dwRDataTmp b i

/-! ### InputStore buffer control (`gateware for sim/store.py`,
`InputStore.elab`, `_elab_write` lines 682-714, `_elab_read` lines 663-680,
r_full array lines 727-732)

The modelled registers are the ones carrying the double-buffering protocol:
`w_curr_buf`, `w_addr`, `r_curr_buf`, `r_ready`, `last_full`, the two `r_full`
flags, and the four dual-port memories (indexed by bank, buffer-select bit and
in-buffer word address).  The sequential-read addressing registers (`r_addr`,
the SMR internals) do not feed back into any of these, so they are omitted.
Priority of same-signal sync writes follows elaboration order:
for `r_full`, the `r_finished` clear in `_elab_read` overrides the full-set
in `_elab_write`, which overrides the restart clear in `elab`; for the read-side registers,
restart (elaborated last) overrides `r_finished`, which overrides the
full-rising-edge set. -/

structure ISState where
  wCurrBuf : Bool
  wAddr : Nat
  rCurrBuf : Bool
  rReady : Bool
  lastFull : Bool
  rFull0 : Bool
  rFull1 : Bool
  mem : Fin 4 → Bool → Nat → Int

structure ISInput where
  wEn : Bool
  wData : Int
  rNext : Bool
  rFinished : Bool
  restart : Bool

/-- Full flag `r_full` of buffer `b`. -/
def rFullAt (s : ISState) (b : Bool) : Bool := if b then s.rFull1 else s.rFull0

/-- Embedding of `w_ready.eq(~r_full[w_curr_buf])`. -/
def isWReady (s : ISState) : Bool := !(rFullAt s s.wCurrBuf)

/-- A write is accepted this cycle: `w_en & w_ready`. -/
def isAccept (s : ISState) (inp : ISInput) : Bool := inp.wEn && isWReady s

/-- The accepted write completes the buffer: `w_addr == input_depth - 1`. -/
def isComplete (inputDepth : Nat) (s : ISState) (inp : ISInput) : Bool :=
  isAccept s inp && (s.wAddr == inputDepth - 1)

/-- One clock tick of the InputStore buffer-control registers. -/
def isStep (inputDepth : Nat) (s : ISState) (inp : ISInput) : ISState :=
  let accept := isAccept s inp
  let complete := isComplete inputDepth s inp
  let full := rFullAt s s.rCurrBuf
  { wCurrBuf := if inp.restart then false
      else if complete then !s.wCurrBuf else s.wCurrBuf
    wAddr := if inp.restart then 0
      else if complete then 0
      else if accept then s.wAddr + 1 else s.wAddr
    rCurrBuf := if inp.restart then false
      else if inp.rFinished then !s.rCurrBuf else s.rCurrBuf
    rReady := if inp.restart then false
      else if inp.rFinished then false
      else if full && !s.lastFull then true
      else s.rReady
    lastFull := if inp.restart then false
      else if inp.rFinished then false
      else full
    rFull0 := if inp.rFinished && (s.rCurrBuf == false) then false
      else if complete && (s.wCurrBuf == false) then true
      else if inp.restart then false
      else s.rFull0
    rFull1 := if inp.rFinished && (s.rCurrBuf == true) then false
      else if complete && (s.wCurrBuf == true) then true
      else if inp.restart then false
      else s.rFull1
    mem := fun bank buf a =>
      if accept && (bank.val == s.wAddr % 4) && (buf == s.wCurrBuf) &&
          (a == s.wAddr / 4)
      then inp.wData else s.mem bank buf a }

/-- Reset state of the InputStore buffer control. -/
def isInit : ISState :=
  ⟨false, 0, false, false, false, false, false, fun _ _ _ => 0⟩

/-- Reachability of an InputStore control state from reset under some input
trace (with a fixed configured `input_depth`). -/
def isReachable (inputDepth : Nat) (s : ISState) : Prop :=
  ∃ l : List ISInput, s = l.foldl (isStep inputDepth) isInit

/-! ## Helper lemmas -/

/-- A value already in the signed range of a `(w+1)`-bit signal is unchanged by
the twos-complement wrap. -/
theorem sw_eq_self (w : Nat) (x : Int) (hl : -(2 ^ w : Int) ≤ x)
    (hr : x < 2 ^ w) : sw (w + 1) x = x := by
  have hmn : (((2 ^ (w + 1) : Nat) : Int)) = 2 * 2 ^ w := by push_cast; ring
  have hhalf : (((2 ^ (w + 1) : Nat) : Int) + 1) / 2 = 2 ^ w := by
    rw [hmn]; omega
  have hwpos : (0 : Int) < 2 ^ w := by positivity
  rcases le_or_lt 0 x with hx | hx
  · have hmod : x % ((2 ^ (w + 1) : Nat) : Int) = x := by
      apply Int.emod_eq_of_lt hx
      rw [hmn]; linarith
    unfold sw
    rw [Int.bmod_pos _ _ ?_, hmod]
    rw [hmod, hhalf]; exact hr
  · have hmod : x % ((2 ^ (w + 1) : Nat) : Int) = x + 2 * 2 ^ w := by
      rw [hmn]
      have h1 : (x + 2 * 2 ^ w * 1) % (2 * 2 ^ w) = x % (2 * 2 ^ w) :=
        Int.add_mul_emod_self_left x (2 * 2 ^ w) 1
      have h2 : (x + 2 * 2 ^ w) % (2 * 2 ^ w) = x + 2 * 2 ^ w := by
        apply Int.emod_eq_of_lt (by linarith) (by linarith)
      rw [mul_one] at h1
      rw [← h1, h2]
    unfold sw
    rw [Int.bmod_neg _ _ ?_, hmod, hmn]
    · ring
    rw [hmod, hhalf]; linarith

/-- After `n` ticks the `k`-th shift-register bit of a `Delayer` holds the
input from `k + 1` ticks ago. -/
theorem delayRun_get (f : Nat → Bool) (n kv : Nat) (hk6 : kv < 6)
    (h : kv < n) : delayRun f n ⟨kv, hk6⟩ = f (n - 1 - kv) := by
  induction n generalizing kv with
  | zero => omega
  | succ m ih =>
    by_cases h0 : kv = 0
    · subst h0
      show delayShift (delayRun f m) (f m) ⟨0, hk6⟩ = f (m + 1 - 1 - 0)
      simp [delayShift]
    · have hk : kv - 1 < m := by omega
      have step : delayShift (delayRun f m) (f m) ⟨kv, hk6⟩ =
          delayRun f m ⟨kv - 1, by omega⟩ := by
        simp [delayShift, h0]
      show delayShift (delayRun f m) (f m) ⟨kv, hk6⟩ = f (m + 1 - 1 - kv)
      rw [step, ih (kv - 1) (by omega) hk]
      have heq : m - 1 - (kv - 1) = m + 1 - 1 - kv := by omega
      rw [heq]

/-- Wrap `sw 28` is the identity on the signed-28 range. -/
theorem sw28_eq (x : Int) (hl : -134217728 ≤ x) (hr : x < 134217728) :
    sw 28 x = x := by
  have h := sw_eq_self 27 x (by norm_num; linarith) (by norm_num; linarith)
  exact h

/-- Wrap `sw 32` is the identity on the signed-32 range. -/
theorem sw32_eq (x : Int) (hl : -2147483648 ≤ x) (hr : x < 2147483648) :
    sw 32 x = x := by
  have h := sw_eq_self 31 x (by norm_num; linarith) (by norm_num; linarith)
  exact h

/-- Wrap `sw 24` is the identity on the signed-24 range. -/
theorem sw24_eq (x : Int) (hl : -8388608 ≤ x) (hr : x < 8388608) :
    sw 24 x = x := by
  have h := sw_eq_self 23 x (by norm_num; linarith) (by norm_num; linarith)
  exact h

/-! ## Claim theorems -/

/-- C10: the Delayer realizes delays of 2 to 5 cycles exactly as configured;
for every other `cycles` setting (0, 1, and everything above 5) the output is
the input delayed by exactly one cycle — the delay depth is silently capped
and never exceeds 5 cycles. -/
theorem c10_delayer_caps (f : Nat → Bool) (c n : Nat) :
    ((c = 2 ∨ c = 3 ∨ c = 4 ∨ c = 5) → c ≤ n →
      delayOutput (delayRun f n) c = f (n - c)) ∧
    (¬(c = 2 ∨ c = 3 ∨ c = 4 ∨ c = 5) → 1 ≤ n →
      delayOutput (delayRun f n) c = f (n - 1)) := by
  constructor
  · rintro (rfl | rfl | rfl | rfl) hn
    · calc delayOutput (delayRun f n) 2 = delayRun f n ⟨1, by omega⟩ := rfl
        _ = f (n - 1 - 1) := delayRun_get f n 1 (by omega) (by omega)
        _ = f (n - 2) := by rw [show n - 1 - 1 = n - 2 from by omega]
    · calc delayOutput (delayRun f n) 3 = delayRun f n ⟨2, by omega⟩ := rfl
        _ = f (n - 1 - 2) := delayRun_get f n 2 (by omega) (by omega)
        _ = f (n - 3) := by rw [show n - 1 - 2 = n - 3 from by omega]
    · calc delayOutput (delayRun f n) 4 = delayRun f n ⟨3, by omega⟩ := rfl
        _ = f (n - 1 - 3) := delayRun_get f n 3 (by omega) (by omega)
        _ = f (n - 4) := by rw [show n - 1 - 3 = n - 4 from by omega]
    · calc delayOutput (delayRun f n) 5 = delayRun f n ⟨4, by omega⟩ := rfl
        _ = f (n - 1 - 4) := delayRun_get f n 4 (by omega) (by omega)
        _ = f (n - 5) := by rw [show n - 1 - 4 = n - 5 from by omega]
  · intro hc hn
    push_neg at hc
    obtain ⟨h2, h3, h4, h5⟩ := hc
    have ho : delayOutput (delayRun f n) c = delayRun f n ⟨0, by omega⟩ := by
      simp [delayOutput, h2, h3, h4, h5]
    rw [ho, delayRun_get f n 0 (by omega) (by omega)]
    rw [show n - 1 - 0 = n - 1 from by omega]

/-- Witness for C10 at concrete inputs: a pulse at tick 0 reappears at tick 5
when `cycles = 5`, and a `cycles = 9` setting yields a one-cycle delay. -/
theorem c10_delayer_caps_witness :
    delayOutput (delayRun (fun i : Nat => i == 0) 5) 5 =
      (fun i : Nat => i == 0) 0 ∧
    delayOutput (delayRun (fun i : Nat => i == 0) 5) 9 =
      (fun i : Nat => i == 0) 4 :=
  ⟨(c10_delayer_caps (fun i : Nat => i == 0) 5 5).1 (by decide) (by omega),
   (c10_delayer_caps (fun i : Nat => i == 0) 9 5).2 (by decide) (by omega)⟩

/-- C1 as stated is false: with products 0..7 zero and products 8..15 one, the
partial sum registered into `add_sum` is 0, not the sum 8 of all 16 products —
the pointwise reduction covers only the first 8 products. -/
theorem c1_counterexample :
    (pwStep ⟨0, 0⟩ (fun i => if i.val < 8 then 0 else 1) true false).addSum ≠
      sumAll16 (fun i => if i.val < 8 then 0 else 1) := by
  decide

/-- C1 (amended): the partial sum registered into `add_sum` equals the sum of
the first 8 of the 16 products (the pointwise datapath is 8 products wide),
and on an add-enable pulse (without clear) that registered partial sum is what
is added into the persistent accumulator. -/
theorem c1_partial_sum_first_eight (s : PwAccState) (iv : Fin 16 → Int)
    (h : ∀ i : Fin 16, -8388608 ≤ iv i ∧ iv i < 8388608) (addEn clear : Bool) :
    (pwStep s iv addEn clear).addSum =
      iv 0 + iv 1 + iv 2 + iv 3 + iv 4 + iv 5 + iv 6 + iv 7 ∧
    (addEn = true → clear = false →
      (pwStep s iv addEn clear).accumulator =
        sw 32 (s.accumulator + s.addSum)) := by
  constructor
  · show sw 28 (pwAddSumComb iv) = _
    unfold pwAddSumComb
    have h0 := h 0
    have h1 := h 1
    have h2 := h 2
    have h3 := h 3
    have h4 := h 4
    have h5 := h 5
    have h6 := h 6
    have h7 := h 7
    exact sw28_eq _ (by omega) (by omega)
  · intro ha hc
    simp [pwStep, ha, hc]

/-- Witness for C1 (amended) at a concrete product vector. -/
theorem c1_partial_sum_first_eight_witness :
    (pwStep ⟨0, 0⟩ (fun i => (i.val : Int)) true false).addSum =
      (0 : Int) + 1 + 2 + 3 + 4 + 5 + 6 + 7 :=
  (c1_partial_sum_first_eight ⟨0, 0⟩ (fun i => (i.val : Int))
    (by decide) true false).1

/-- C3: for the pointwise accumulator, clear zeroes the accumulator on the
next cycle even when add-enable is also asserted; the result output equals the
pre-add accumulator when add-enable is low, accumulator plus the freshly
reduced partial sum when high; and that result is exactly the value the add
commits into the accumulator (visible the same cycle). -/
theorem c3_pointwise_accumulator (s : PwAccState) (iv : Fin 16 → Int)
    (addEn : Bool)
    (h : -2147483648 ≤ s.accumulator + s.addSum ∧
      s.accumulator + s.addSum < 2147483648) :
    (pwStep s iv addEn true).accumulator = 0 ∧
    pwResult s false = s.accumulator ∧
    pwResult s true = s.accumulator + s.addSum ∧
    pwResult s true = (pwStep s iv true false).accumulator := by
  refine ⟨rfl, rfl, ?_, rfl⟩
  show sw 32 (s.accumulator + s.addSum) = _
  exact sw32_eq _ h.1 h.2

/-- Witness for C3 at a concrete accumulator state. -/
theorem c3_pointwise_accumulator_witness :
    pwResult ⟨5, 7⟩ true = (7 : Int) + 5 :=
  (c3_pointwise_accumulator ⟨5, 7⟩ (fun _ => 0) true (by decide)).2.2.1

/-- C2: in depthwise mode, the correction registers `late_in_values` capture
products 12..15 one cycle ahead of use, and each per-lane result is the fixed
linear combination `Y_tmp` of the 16 products combined with that
previously-registered correction — added for lanes 0 and 3, subtracted for
lanes 1 and 2 — then arithmetically right-shifted by 2 (floor, no rounding). -/
theorem c2_depthwise_transform (s : DwState) (iv iv2 : Fin 16 → Int)
    (h : ∀ i : Fin 16, -8388608 ≤ iv i ∧ iv i < 8388608) :
    ((dwStep s iv).late 0 = iv 12 ∧ (dwStep s iv).late 1 = iv 13 ∧
      (dwStep s iv).late 2 = iv 14 ∧ (dwStep s iv).late 3 = iv 15) ∧
    dwResult (dwStep (dwStep s iv) iv2) 0 = Int.fdiv (ytmpComb iv 0 + iv 12) 4 ∧
    dwResult (dwStep (dwStep s iv) iv2) 1 = Int.fdiv (ytmpComb iv 1 - iv 13) 4 ∧
    dwResult (dwStep (dwStep s iv) iv2) 2 = Int.fdiv (ytmpComb iv 2 - iv 14) 4 ∧
    dwResult (dwStep (dwStep s iv) iv2) 3 = Int.fdiv (ytmpComb iv 3 + iv 15) 4 := by
  obtain ⟨ha0, hb0⟩ := h 0
  obtain ⟨ha1, hb1⟩ := h 1
  obtain ⟨ha2, hb2⟩ := h 2
  obtain ⟨ha3, hb3⟩ := h 3
  obtain ⟨ha4, hb4⟩ := h 4
  obtain ⟨ha5, hb5⟩ := h 5
  obtain ⟨ha6, hb6⟩ := h 6
  obtain ⟨ha7, hb7⟩ := h 7
  obtain ⟨ha8, hb8⟩ := h 8
  obtain ⟨ha9, hb9⟩ := h 9
  obtain ⟨ha10, hb10⟩ := h 10
  obtain ⟨ha11, hb11⟩ := h 11
  obtain ⟨ha12, hb12⟩ := h 12
  obtain ⟨ha13, hb13⟩ := h 13
  obtain ⟨ha14, hb14⟩ := h 14
  obtain ⟨ha15, hb15⟩ := h 15
  have e0 : ytmpComb iv 0 =
      iv 0 + iv 2 + iv 8 + iv 1 + iv 3 + iv 9 + iv 4 + iv 6 := rfl
  have e1 : ytmpComb iv 1 =
      iv 1 + iv 3 + iv 9 - iv 4 - iv 6 - iv 12 - iv 5 - iv 7 := rfl
  have e2 : ytmpComb iv 2 =
      iv 2 - iv 8 - iv 10 + iv 3 - iv 9 - iv 11 + iv 6 - iv 12 := rfl
  have e3 : ytmpComb iv 3 =
      iv 3 - iv 9 - iv 11 - iv 6 + iv 12 + iv 14 - iv 7 + iv 13 := rfl
  have sl0 : sw 24 (iv 12) = iv 12 := sw24_eq _ ha12 hb12
  have sl1 : sw 24 (iv 13) = iv 13 := sw24_eq _ ha13 hb13
  have sl2 : sw 24 (iv 14) = iv 14 := sw24_eq _ ha14 hb14
  have sl3 : sw 24 (iv 15) = iv 15 := sw24_eq _ ha15 hb15
  have sy0 : sw 32 (ytmpComb iv 0) = ytmpComb iv 0 := by
    rw [e0]; exact sw32_eq _ (by omega) (by omega)
  have sy1 : sw 32 (ytmpComb iv 1) = ytmpComb iv 1 := by
    rw [e1]; exact sw32_eq _ (by omega) (by omega)
  have sy2 : sw 32 (ytmpComb iv 2) = ytmpComb iv 2 := by
    rw [e2]; exact sw32_eq _ (by omega) (by omega)
  have sy3 : sw 32 (ytmpComb iv 3) = ytmpComb iv 3 := by
    rw [e3]; exact sw32_eq _ (by omega) (by omega)
  have sY0 : sw 32 (ytmpComb iv 0 + iv 12) = ytmpComb iv 0 + iv 12 := by
    rw [e0]; exact sw32_eq _ (by omega) (by omega)
  have sY1 : sw 32 (ytmpComb iv 1 - iv 13) = ytmpComb iv 1 - iv 13 := by
    rw [e1]; exact sw32_eq _ (by omega) (by omega)
  have sY2 : sw 32 (ytmpComb iv 2 - iv 14) = ytmpComb iv 2 - iv 14 := by
    rw [e2]; exact sw32_eq _ (by omega) (by omega)
  have sY3 : sw 32 (ytmpComb iv 3 + iv 15) = ytmpComb iv 3 + iv 15 := by
    rw [e3]; exact sw32_eq _ (by omega) (by omega)
  have y0 : (dwStep (dwStep s iv) iv2).y 0 =
      sw 32 (sw 32 (ytmpComb iv 0) + sw 24 (iv 12)) := rfl
  have y1 : (dwStep (dwStep s iv) iv2).y 1 =
      sw 32 (sw 32 (ytmpComb iv 1) - sw 24 (iv 13)) := rfl
  have y2 : (dwStep (dwStep s iv) iv2).y 2 =
      sw 32 (sw 32 (ytmpComb iv 2) - sw 24 (iv 14)) := rfl
  have y3 : (dwStep (dwStep s iv) iv2).y 3 =
      sw 32 (sw 32 (ytmpComb iv 3) + sw 24 (iv 15)) := rfl
  refine ⟨⟨?_, ?_, ?_, ?_⟩, ?_, ?_, ?_, ?_⟩
  · show sw 24 (iv 12) = iv 12
    exact sl0
  · show sw 24 (iv 13) = iv 13
    exact sl1
  · show sw 24 (iv 14) = iv 14
    exact sl2
  · show sw 24 (iv 15) = iv 15
    exact sl3
  · show Int.fdiv ((dwStep (dwStep s iv) iv2).y 0) 4 = _
    rw [y0, sy0, sl0, sY0]
  · show Int.fdiv ((dwStep (dwStep s iv) iv2).y 1) 4 = _
    rw [y1, sy1, sl1, sY1]
  · show Int.fdiv ((dwStep (dwStep s iv) iv2).y 2) 4 = _
    rw [y2, sy2, sl2, sY2]
  · show Int.fdiv ((dwStep (dwStep s iv) iv2).y 3) 4 = _
    rw [y3, sy3, sl3, sY3]

/-- Witness for C2: lane 0 at a concrete product stream. -/
theorem c2_depthwise_transform_witness :
    dwResult
      (dwStep (dwStep ⟨fun _ => 0, fun _ => 0, fun _ => 0⟩
        (fun i => (i.val : Int))) (fun _ => 0)) 0 =
      Int.fdiv (ytmpComb (fun i => (i.val : Int)) 0 +
        (fun i : Fin 16 => (i.val : Int)) 12) 4 :=
  (c2_depthwise_transform ⟨fun _ => 0, fun _ => 0, fun _ => 0⟩
    (fun i => (i.val : Int)) (fun _ => 0) (by decide)).2.1

/-- C4 as stated is false: after one gated pointwise cycle the FIFO reports no
space, so `gate` is low in cycle 3 — yet `i_count` (enabled by the 3-cycle
delayed gate, `mul_done`) still advances that cycle. -/
theorem c4_counterexample :
    seqGate c4s3 c4in3 = false ∧
    (seqStep c4cfg c4s3 c4in3).iCount ≠ c4s3.iCount := by
  decide

/-- C4 (amended): `gate` is exactly `(running OR start_run) AND in_store_ready
AND fifo_has_space`, so it is low whenever `fifo_has_space` is low; while
`gate` is low (and absent a restart) the gate-enabled sequencer counters — the
filter-word counter and the tile counter — hold their values exactly, resuming
where they left off.  (The input-word counter is enabled by a delayed copy of
`gate` and can still advance up to the multiplier latency after `gate`
falls.) -/
theorem c4_gate_and_gated_counters (cfg : SeqConfig) (s : SeqState)
    (i : SeqInput) :
    seqGate s i =
      ((s.running || i.startRun) && i.inStoreReady && i.fifoHasSpace) ∧
    (i.fifoHasSpace = false → seqGate s i = false) ∧
    (seqGate s i = false → i.restart = false →
      (seqStep cfg s i).fCount = s.fCount ∧
      (seqStep cfg s i).fnextCount = s.fnextCount) := by
  refine ⟨rfl, ?_, ?_⟩
  · intro hf
    simp [seqGate, hf]
  · intro hg hr
    constructor <;> simp [seqStep, upCount, hg, hr]

/-- Witness for C4 (amended): with the FIFO full, the gate is low at reset. -/
theorem c4_gate_and_gated_counters_witness :
    seqGate seqInit ⟨true, true, false, false⟩ = false :=
  (c4_gate_and_gated_counters c4cfg seqInit ⟨true, true, false, false⟩).2.1 rfl

/-- The combinational `r_addr` of a `CircularIncrementer` stays within
`limit - 1` whenever the latched address does. -/
theorem circEmit_le (w limit : Nat) (h1 : 1 ≤ limit) (h2 : limit ≤ 2 ^ w)
    (s : CircState) (hs : s.lastAddr ≤ limit - 1) (restart nxt : Bool) :
    circEmit w limit s restart nxt ≤ limit - 1 := by
  unfold circEmit
  split_ifs with hre hnx hge
  · omega
  · omega
  · rw [Nat.mod_eq_of_lt (by omega)]
    omega
  · exact hs

/-- The latched address of a `CircularIncrementer` run from reset never
exceeds `limit - 1`. -/
theorem circRun_le (w limit : Nat) (h1 : 1 ≤ limit) (h2 : limit ≤ 2 ^ w)
    (l : List (Bool × Bool)) : (circRun w limit l).lastAddr ≤ limit - 1 := by
  suffices hgen : ∀ s : CircState, s.lastAddr ≤ limit - 1 →
      (l.foldl (fun s p => circStep w limit s p.1 p.2) s).lastAddr ≤
        limit - 1 by
    exact hgen ⟨0⟩ (Nat.zero_le _)
  induction l with
  | nil => intro s hs; exact hs
  | cons p rest ih =>
    intro s hs
    exact ih _ (circEmit_le w limit h1 h2 s hs p.1 p.2)

/-- C6: for every limit from 1 up to the configured depth, the Circular
Incrementer emits address 0 after restart, emits `last + 1` on next unless
`last = limit - 1` where it wraps to 0, and the emitted read address never
exceeds `limit - 1` along any run from reset. -/
theorem c6_circular_incrementer (w limit : Nat) (h1 : 1 ≤ limit)
    (h2 : limit ≤ 2 ^ w) (l : List (Bool × Bool)) (restart nxt : Bool) :
    circEmit w limit (circRun w limit l) restart nxt ≤ limit - 1 ∧
    (restart = true → circEmit w limit (circRun w limit l) restart nxt = 0) ∧
    (restart = false → nxt = true →
      circEmit w limit (circRun w limit l) restart nxt =
        if (circRun w limit l).lastAddr = limit - 1 then 0
        else (circRun w limit l).lastAddr + 1) := by
  have hinv := circRun_le w limit h1 h2 l
  refine ⟨circEmit_le w limit h1 h2 _ hinv restart nxt, ?_, ?_⟩
  · intro hr
    simp [circEmit, hr]
  · intro hr hn
    simp only [circEmit, hr, hn]
    norm_num
    split_ifs with hge heq heq
    · rfl
    · omega
    · omega
    · rw [Nat.mod_eq_of_lt (by omega)]

/-- Witness for C6 on a concrete run: depth-16 width, limit 3, one next
pulse taken, then a further next emits address 2. -/
theorem c6_circular_incrementer_witness :
    circEmit 4 3 (circRun 4 3 [(false, true)]) false true =
      (if (circRun 4 3 [(false, true)]).lastAddr = 3 - 1 then 0
       else (circRun 4 3 [(false, true)]).lastAddr + 1) :=
  (c6_circular_incrementer 4 3 (by omega) (by norm_num) [(false, true)]
    false true).2.2 rfl rfl

/-- C7: on every accepted write (`start` without `restart`) the Store Setter
enables exactly bank `count mod N` at word address `count div N`, increments
`count` by one and raises `updated`; on `restart` the count is zeroed,
`updated` is raised, and no bank write is enabled (the write is ignored). -/
theorem c7_store_setter (nmb aw cw depth : Nat) (s : SSState)
    (start restart : Bool)
    (hc : s.count < 2 ^ nmb * depth) (hcw : 2 ^ nmb * depth < 2 ^ cw)
    (haw : depth ≤ 2 ^ aw) :
    (start = true → restart = false →
      ssWEn nmb s.count start restart (s.count % 2 ^ nmb) = true ∧
      (∀ j : Nat, j ≠ s.count % 2 ^ nmb →
        ssWEn nmb s.count start restart j = false) ∧
      ssWAddr nmb aw s.count = s.count / 2 ^ nmb ∧
      (ssStep cw s start restart).count = s.count + 1 ∧
      ssUpdated nmb s.count start restart = true) ∧
    (restart = true →
      (ssStep cw s start restart).count = 0 ∧
      ssUpdated nmb s.count start restart = true ∧
      ∀ j : Nat, ssWEn nmb s.count start restart j = false) := by
  have hN : 0 < 2 ^ nmb := Nat.pow_pos (by omega)
  constructor
  · intro hs hr
    subst hs
    subst hr
    refine ⟨?_, ?_, ?_, ?_, ?_⟩
    · simp [ssWEn]
    · intro j hj
      simp [ssWEn, hj]
    · unfold ssWAddr
      apply Nat.mod_eq_of_lt
      have hd : s.count / 2 ^ nmb < depth := Nat.div_lt_of_lt_mul hc
      omega
    · show (s.count + 1) % 2 ^ cw = s.count + 1
      exact Nat.mod_eq_of_lt (by omega)
    · unfold ssUpdated
      apply Bool.or_eq_true_iff.mpr
      left
      apply List.any_eq_true.mpr
      exact ⟨s.count % 2 ^ nmb, List.mem_range.mpr (Nat.mod_lt _ hN),
        by simp [ssWEn]⟩
  · intro hr
    exact ⟨by simp [ssStep, hr], by simp [ssUpdated, hr],
      fun j => by simp [ssWEn, hr]⟩

/-- Witness for C7: four banks (`nmb = 2`), count 5 — bank 1, word address 1,
count advances to 6. -/
theorem c7_store_setter_witness :
    ssWEn 2 5 true false (5 % 2 ^ 2) = true ∧
    ssWAddr 2 3 5 = 5 / 2 ^ 2 ∧
    (ssStep 6 ⟨5⟩ true false).count = 5 + 1 :=
  have h := (c7_store_setter 2 3 6 8 ⟨5⟩ true false (by norm_num)
    (by norm_num) (by norm_num)).1 rfl rfl
  ⟨h.1, h.2.2.1, h.2.2.2.1⟩

/-- C8: on a next pulse the Filter Value Fetcher advances its read position by
exactly 2 in pointwise mode — pulsing the readers at positions `r_addr` and
`r_addr + 1` (mod 4) and wrapping to 0 at `limit - 2`; this half is stated at
the even read positions, the ones pointwise operation reaches (steps of +2
from 0) — and, at every read position, by exactly 3 in depthwise mode —
pulsing the readers at `r_addr`, `r_addr + 1`, `r_addr + 2` (mod 4) of the
rotating 4-reader window and wrapping to 0 at `limit - 3`. -/
theorem c8_filter_fetcher_advance (w limit rAddr : Nat) (restart nxt : Bool)
    (hr : restart = false) (hn : nxt = true) :
    (rAddr % 2 = 0 → rAddr + 2 < 2 ^ w →
      (∀ i : Fin 4, fvfSmrNexts false rAddr restart nxt i = true ↔
        (i.val = rAddr % 4 ∨ i.val = (rAddr + 1) % 4)) ∧
      fvfNextRAddr w false limit rAddr restart nxt =
        (if rAddr = limit - 2 then 0 else rAddr + 2)) ∧
    (rAddr + 3 < 2 ^ w →
      (∀ i : Fin 4, fvfSmrNexts true rAddr restart nxt i = true ↔
        (i.val = rAddr % 4 ∨ i.val = (rAddr + 1) % 4 ∨
          i.val = (rAddr + 2) % 4)) ∧
      fvfNextRAddr w true limit rAddr restart nxt =
        (if rAddr = limit - 3 then 0 else rAddr + 3)) := by
  subst hr
  subst hn
  constructor
  · intro heven hw2
    constructor
    · intro i
      have hk : rAddr % 4 + 1 = (rAddr + 1) % 4 := by omega
      simp [fvfSmrNexts, hk]
    · simp only [fvfNextRAddr, Bool.false_eq_true, if_false, if_true]
      split_ifs
      · rfl
      · exact Nat.mod_eq_of_lt hw2
  · intro hw3
    constructor
    · intro i
      simp [fvfSmrNexts, or_assoc]
    · simp only [fvfNextRAddr, Bool.false_eq_true, if_false, if_true]
      split_ifs
      · rfl
      · exact Nat.mod_eq_of_lt hw3

/-- Witness for C8: with limit 8, the depthwise path at the odd read
position 3 advances to 6, and the pointwise path at the even read position 4
advances to 6. -/
theorem c8_filter_fetcher_advance_witness :
    fvfNextRAddr 6 true 8 3 false true = (if 3 = 8 - 3 then 0 else 3 + 3) ∧
    fvfNextRAddr 6 false 8 4 false true = (if 4 = 8 - 2 then 0 else 4 + 2) :=
  have hd := (c8_filter_fetcher_advance 6 8 3 false true rfl rfl).2
    (by norm_num)
  have hp := (c8_filter_fetcher_advance 6 8 4 false true rfl rfl).1
    (by norm_num) (by norm_num)
  ⟨hd.2, hp.2⟩

/-- C9: in the depthwise read path the input offset contributes to exactly one
lane: every lane of `r_data` other than lane 3 is independent of the offset,
and lane 3 receives the offset scaled by 4 added to its transform sum. -/
theorem c9_offset_single_lane (b : Fin 16 → Int) (o o2 : Int) :
    (∀ i : Fin 16, i.val ≠ 3 → dwRData b o i = dwRData b o2 i) ∧
    dwRData b o 3 = sw 12 (dwRDataTmp b 3 + o * 4) := by
  constructor
  · intro i hi
    simp [dwRData, hi]
  · rfl

/-- Witness for C9: lane 0 agrees across offsets 5 and 9; lane 3 carries
`4 * offset`. -/
theorem c9_offset_single_lane_witness :
    dwRData (fun _ => 1) 5 0 = dwRData (fun _ => 1) 9 0 ∧
    dwRData (fun _ => 1) 5 3 = sw 12 (dwRDataTmp (fun _ => 1) 3 + 5 * 4) :=
  have h := c9_offset_single_lane (fun _ => 1) 5 9
  ⟨h.1 0 (by decide), h.2⟩

/-- One InputStore step preserves the invariant "read-ready implies the
current read buffer is full". -/
theorem isStep_rReady_inv (d : Nat) (s : ISState) (inp : ISInput)
    (h : s.rReady = true → rFullAt s s.rCurrBuf = true) :
    (isStep d s inp).rReady = true →
      rFullAt (isStep d s inp) (isStep d s inp).rCurrBuf = true := by
  intro hr
  cases hrs : inp.restart with
  | true => simp [isStep, hrs] at hr
  | false =>
  cases hrf : inp.rFinished with
  | true => simp [isStep, hrs, hrf] at hr
  | false =>
    have hcb : (isStep d s inp).rCurrBuf = s.rCurrBuf := by
      simp [isStep, hrs, hrf]
    rw [hcb]
    have hstep : (isStep d s inp).rReady =
        (if rFullAt s s.rCurrBuf && !s.lastFull then true else s.rReady) := by
      simp [isStep, hrs, hrf]
    rw [hstep] at hr
    have hfull : rFullAt s s.rCurrBuf = true := by
      by_cases hc : (rFullAt s s.rCurrBuf && !s.lastFull) = true
      · simp only [Bool.and_eq_true] at hc
        exact hc.1
      · exact h (by simpa [hc] using hr)
    cases hb : s.rCurrBuf with
    | false =>
      show (isStep d s inp).rFull0 = true
      have hign : (inp.rFinished && (s.rCurrBuf == false)) = false := by
        simp [hrf]
      simp only [isStep, hign, Bool.false_eq_true, if_false, hrs]
      split_ifs with hcomp
      · rfl
      · rw [hb] at hfull
        exact hfull
    | true =>
      show (isStep d s inp).rFull1 = true
      have hign : (inp.rFinished && (s.rCurrBuf == true)) = false := by
        simp [hrf]
      simp only [isStep, hign, Bool.false_eq_true, if_false, hrs]
      split_ifs with hcomp
      · rfl
      · rw [hb] at hfull
        exact hfull

/-- In every reachable InputStore state, read-ready implies the current read
buffer has its full flag set. -/
theorem isReachable_rReady (d : Nat) (s : ISState) (hs : isReachable d s) :
    s.rReady = true → rFullAt s s.rCurrBuf = true := by
  obtain ⟨l, rfl⟩ := hs
  suffices hgen : ∀ s0 : ISState,
      (s0.rReady = true → rFullAt s0 s0.rCurrBuf = true) →
      ((l.foldl (isStep d) s0).rReady = true →
        rFullAt (l.foldl (isStep d) s0) (l.foldl (isStep d) s0).rCurrBuf =
          true) by
    refine hgen isInit ?_
    intro hinit
    exact absurd hinit (by simp [isInit])
  induction l with
  | nil => exact fun s0 h => h
  | cons a rest ih => exact fun s0 h => ih _ (isStep_rReady_inv d s0 a h)

/-- C5: double-buffering invariant of the Input Store.  In every reachable
state: read-ready implies the read buffer is full; writes are accepted only
into a buffer whose full flag is clear; hence an accepted write and an active
read never target the same buffer, and the memory region of the read buffer is
untouched by the write; the write selector toggles (and the buffer is marked
full) exactly on the write completing `input_depth` words; and a set full
flag is cleared only by `r_finished` or `restart`. -/
theorem c5_input_store_double_buffering (d : Nat) (s : ISState)
    (hs : isReachable d s) (inp : ISInput) :
    (s.rReady = true → rFullAt s s.rCurrBuf = true) ∧
    (isAccept s inp = true → rFullAt s s.wCurrBuf = false) ∧
    (isAccept s inp = true → s.rReady = true → s.wCurrBuf ≠ s.rCurrBuf) ∧
    (isAccept s inp = true → s.rReady = true → ∀ bank : Fin 4, ∀ a : Nat,
      (isStep d s inp).mem bank s.rCurrBuf a = s.mem bank s.rCurrBuf a) ∧
    (inp.restart = false →
      ((isStep d s inp).wCurrBuf ≠ s.wCurrBuf ↔ isComplete d s inp = true)) ∧
    (inp.restart = false → inp.rFinished = false → isComplete d s inp = true →
      rFullAt (isStep d s inp) s.wCurrBuf = true) ∧
    (∀ b : Bool, rFullAt (isStep d s inp) b = false →
      rFullAt s b = false ∨ inp.rFinished = true ∨ inp.restart = true) := by
  have hready := isReachable_rReady d s hs
  have hacc_not_full : isAccept s inp = true → rFullAt s s.wCurrBuf = false := by
    intro h
    simp only [isAccept, Bool.and_eq_true] at h
    simpa [isWReady] using h.2
  have hdisj : isAccept s inp = true → s.rReady = true →
      s.wCurrBuf ≠ s.rCurrBuf := by
    intro ha hr heq
    have h1 := hacc_not_full ha
    have h2 := hready hr
    rw [heq] at h1
    rw [h1] at h2
    exact Bool.false_ne_true h2
  refine ⟨hready, hacc_not_full, hdisj, ?_, ?_, ?_, ?_⟩
  · intro ha hr bank a
    have hne : s.rCurrBuf ≠ s.wCurrBuf := Ne.symm (hdisj ha hr)
    simp [isStep, hne]
  · intro hrs
    cases hcomp : isComplete d s inp with
    | true => simp [isStep, hrs, hcomp]
    | false => simp [isStep, hrs, hcomp]
  · intro hrs hrf hcomp
    cases hb : s.wCurrBuf with
    | false =>
      show (isStep d s inp).rFull0 = true
      simp [isStep, hrs, hrf, hcomp, hb]
    | true =>
      show (isStep d s inp).rFull1 = true
      simp [isStep, hrs, hrf, hcomp, hb]
  · intro b hf
    cases hrs : inp.restart with
    | true => exact Or.inr (Or.inr rfl)
    | false =>
    cases hrf : inp.rFinished with
    | true => exact Or.inr (Or.inl rfl)
    | false =>
      left
      cases hb : b with
      | false =>
        have hf0 : (isStep d s inp).rFull0 = false := by rw [hb] at hf; exact hf
        have hign : (inp.rFinished && (s.rCurrBuf == false)) = false := by
          simp [hrf]
        simp only [isStep, hign, Bool.false_eq_true, if_false, hrs] at hf0
        show s.rFull0 = false
        revert hf0
        split_ifs with hcomp
        · intro hf0
          exact absurd hf0 (by simp)
        · exact fun hf0 => hf0
      | true =>
        have hf1 : (isStep d s inp).rFull1 = false := by rw [hb] at hf; exact hf
        have hign : (inp.rFinished && (s.rCurrBuf == true)) = false := by
          simp [hrf]
        simp only [isStep, hign, Bool.false_eq_true, if_false, hrs] at hf1
        show s.rFull1 = false
        revert hf1
        split_ifs with hcomp
        · intro hf1
          exact absurd hf1 (by simp)
        · exact fun hf1 => hf1

/-- Witness for C5 at the reset state with a concrete accepted write. -/
theorem c5_input_store_double_buffering_witness :
    rFullAt isInit isInit.wCurrBuf = false :=
  (c5_input_store_double_buffering 4 isInit ⟨[], rfl⟩
    ⟨true, 7, false, false, false⟩).2.1 (by decide)

end WinoFPGA
